import Mathlib

/-!
Verification of the typed key/value token parser of the restreq library.

The embedding models the Go functions `SetJSONKeyValue` and
`AddJSONKeyValue` together with the pieces of the Go standard library they
call: `strings.Cut`, `strconv.ParseBool`, `strconv.ParseInt(s, 10, 64)` and
`strconv.ParseFloat(s, 64)`.

Modelling choices:

* Strings are lists of characters (`Str := List Char`).  The Go code scans
  bytes of UTF-8 strings, but every byte it treats specially is ASCII and
  ASCII bytes never occur inside a multi-byte UTF-8 character, so byte-level
  and character-level scanning accept the same strings and split at the same
  places.
* The JSON accumulator `map[string]any` is an association list with
  overwrite-in-place insertion; all claims are about lookups, which do not
  depend on iteration order.
* The dynamic values stored by the code form the four-way sum
  `JSONValue` (string, bool, 64-bit int, 64-bit float).
* Floating point: a parsed float is kept as the *exact rational value* of
  the accepted numeral (with Go's cap of the literal exponent accumulator
  at five digits), plus infinities and NaN for the special spellings.
  `strconv.ParseFloat` reports an error exactly when the numeral is
  syntactically malformed or the rounded value overflows to infinity;
  under round-to-nearest-even that overflow happens exactly when the
  magnitude reaches `(2^54 - 1) * 2^970`, which the model checks on the
  exact rational.  Only the final rounding step to the nearest double is
  abstracted away; acceptance and classification are as in Go.
-/

set_option maxRecDepth 8192

abbrev Str := List Char

/-- ASCII lower-casing of a character, as used by `strconv` when matching
`x`, `e`, `p`, hex digits and the special spellings `inf` and `nan`.  Go
uses `c | 0x20` at those call sites; on the characters compared against
(`x`, `e`, `p`, `a`-`f`, letters of `inf`/`infinity`/`nan`) the two maps
have exactly the same preimages, so the if-based form is equivalent. -/
def toLower (c : Char) : Char :=
  if 65 ≤ c.toNat ∧ c.toNat ≤ 90 then Char.ofNat (c.toNat + 32) else c

/-- Lower-case every character (model of case-insensitive comparison). -/
def lowerStr (s : Str) : Str := s.map toLower

/-- Decimal digit test, `'0' <= c && c <= '9'` in the Go sources. -/
def isDigit (c : Char) : Bool := 48 ≤ c.toNat && c.toNat ≤ 57

/-- Does `s` start with `pre`?  Model of a substring match at one position. -/
def startsWith : Str → Str → Bool
  | [], _ => true
  | _ :: _, [] => false
  | p :: ps, c :: cs => if p = c then startsWith ps cs else false

/-- Index of the first occurrence of `sep` in `s`, the model of Go's
`strings.Index`. -/
def strIndex (sep : Str) : Str → Option Nat
  | [] => if startsWith sep [] = true then some 0 else none
  | c :: cs =>
    if startsWith sep (c :: cs) = true then some 0
    else (strIndex sep cs).map (fun i => i + 1)

/-- Model of Go's `strings.Cut`: split around the first occurrence of
`sep`, returning `(before, after, found)`; on a miss it returns
`(s, "", false)`. -/
def cut (s sep : Str) : Str × Str × Bool :=
  match strIndex sep s with
  | some i => (s.take i, s.drop (i + sep.length), true)
  | none => (s, [], false)

/-- The typed separator of `SetJSONKeyValue`. -/
def typedSep : Str := ":=".data

/-- The plain string separator of `SetJSONKeyValue`. -/
def strSep : Str := "=".data

/-- Model of Go's `strconv.ParseBool`: the twelve accepted spellings,
matched exactly. -/
def parseBool (s : Str) : Option Bool :=
  if s = "1".data ∨ s = "t".data ∨ s = "T".data ∨ s = "true".data ∨
     s = "TRUE".data ∨ s = "True".data then some true
  else if s = "0".data ∨ s = "f".data ∨ s = "F".data ∨ s = "false".data ∨
     s = "FALSE".data ∨ s = "False".data then some false
  else none

/-- The six spellings Go's `strconv.ParseBool` accepts for true. -/
def trueSpellings : List Str :=
  ["1".data, "t".data, "T".data, "true".data, "TRUE".data, "True".data]

/-- The six spellings Go's `strconv.ParseBool` accepts for false. -/
def falseSpellings : List Str :=
  ["0".data, "f".data, "F".data, "false".data, "FALSE".data, "False".data]

/-- Value of a string of decimal digits. -/
def digitsToNat (digits : Str) : Nat :=
  digits.foldl (fun n c => n * 10 + (c.toNat - 48)) 0

/-- Sign-stripped body of `strconv.ParseInt(s, 10, 64)`: with an explicit
base 10 the digits must be plain `0`-`9` (no underscores, no prefixes),
and the signed value must fit a 64-bit two's-complement integer. -/
def parseIntCore (neg : Bool) (digits : Str) : Option Int :=
  if digits = [] then none
  else if digits.all isDigit = false then none
  else
    let v : Int := if neg then -(digitsToNat digits : Int) else (digitsToNat digits : Int)
    if v < -(2 ^ 63) ∨ 2 ^ 63 - 1 < v then none else some v

/-- Model of Go's `strconv.ParseInt(s, 10, 64)` at the level of acceptance
and value: optional sign, then decimal digits, range-checked. -/
def parseInt64 (s : Str) : Option Int :=
  match s with
  | [] => none
  | c :: cs =>
    if c = '+' then parseIntCore false cs
    else if c = '-' then parseIntCore true cs
    else parseIntCore false (c :: cs)

/-- Value of a successful `strconv.ParseFloat(s, 64)`, with finite values
kept as exact rationals. -/
inductive GoFloat where
  | finite (val : Rat)
  | inf (neg : Bool)
  | nan
  deriving DecidableEq

/-- Unsigned part of `strconv`'s `special`: a (lower-cased) `inf` or
`infinity` after an explicit sign. -/
def specialUnsigned (neg : Bool) (r : Str) : Option GoFloat :=
  if lowerStr r = "inf".data ∨ lowerStr r = "infinity".data then
    some (GoFloat.inf neg)
  else none

/-- Model of `strconv`'s `special`: the spellings `inf` and `infinity`
(optionally signed) and the unsigned `nan`, case-insensitively.  Go also
recognises these as proper prefixes and then fails on the leftover text,
which is the same acceptance behaviour. -/
def special (s : Str) : Option GoFloat :=
  match s with
  | [] => none
  | c :: cs =>
    if c = '+' then specialUnsigned false cs
    else if c = '-' then specialUnsigned true cs
    else if lowerStr s = "inf".data ∨ lowerStr s = "infinity".data then
      some (GoFloat.inf false)
    else if lowerStr s = "nan".data then some GoFloat.nan
    else none

/-- Digit value in the mantissa scan: decimal digits always, hex letters
only in base 16 (case-insensitively). -/
def digitVal (base : Nat) (c : Char) : Option Nat :=
  if isDigit c = true then some (c.toNat - 48)
  else if base = 16 ∧ 97 ≤ (toLower c).toNat ∧ (toLower c).toNat ≤ 102 then
    some ((toLower c).toNat - 87)
  else none

/-- Mantissa loop of `strconv`'s `readFloat`: consumes digits, at most one
dot, and underscores, returning the accumulated digits, the digit count,
the digit position of the dot, the underscore flag, and the unconsumed
rest.  Go skips leading zeros of the mantissa with a compensating shift of
the decimal-point position; accumulating them instead yields the same
represented value. -/
def scanMantissa (base : Nat) :
    Str → Nat → Nat → Option Nat → Bool → Nat × Nat × Option Nat × Bool × Str
  | [], mant, nd, dpOpt, us => (mant, nd, dpOpt, us, [])
  | c :: cs, mant, nd, dpOpt, us =>
    if c = '_' then scanMantissa base cs mant nd dpOpt true
    else if c = '.' then
      match dpOpt with
      | some _ => (mant, nd, dpOpt, us, c :: cs)
      | none => scanMantissa base cs mant nd (some nd) us
    else
      match digitVal base c with
      | some d => scanMantissa base cs (mant * base + d) (nd + 1) dpOpt us
      | none => (mant, nd, dpOpt, us, c :: cs)

/-- Exponent loop of `readFloat`: digits and underscores to the end of the
string, with Go's cap of the accumulator once it reaches five digits. -/
def scanExp : Str → Nat → Bool → Option (Nat × Bool)
  | [], e, us => some (e, us)
  | c :: cs, e, us =>
    if c = '_' then scanExp cs e true
    else if isDigit c = true then
      scanExp cs (if e < 10000 then e * 10 + (c.toNat - 48) else e) us
    else none

/-- State of `strconv`'s `underscoreOK` scan: beginning of the number, a
digit (or base prefix), an underscore, or anything else. -/
inductive USaw where
  | start
  | digit
  | under
  | other
  deriving DecidableEq

/-- Loop of `strconv`'s `underscoreOK`: an underscore may only stand
between digits (hex digits too in a hex literal). -/
def underscoreLoop (hexb : Bool) : USaw → Str → Bool
  | saw, [] => decide (saw ≠ USaw.under)
  | saw, c :: cs =>
    if isDigit c = true ∨ (hexb = true ∧ 97 ≤ (toLower c).toNat ∧ (toLower c).toNat ≤ 102) then
      underscoreLoop hexb USaw.digit cs
    else if c = '_' then
      decide (saw = USaw.digit) && underscoreLoop hexb USaw.under cs
    else if saw = USaw.under then false
    else underscoreLoop hexb USaw.other cs

/-- Body of `underscoreOK` after the optional sign: an optional base
prefix (`0b`, `0o`, `0x`) counts as a digit, then the main loop runs. -/
def underscoreOKAfterSign (s1 : Str) : Bool :=
  match s1 with
  | '0' :: x :: r =>
    if toLower x = 'b' ∨ toLower x = 'o' ∨ toLower x = 'x' then
      underscoreLoop (decide (toLower x = 'x')) USaw.digit r
    else underscoreLoop false USaw.start ('0' :: x :: r)
  | s1 => underscoreLoop false USaw.start s1

/-- Model of `strconv.underscoreOK`, validating underscore placement over
the whole literal. -/
def underscoreOK (s : Str) : Bool :=
  underscoreOKAfterSign
    (match s with
     | '+' :: r => r
     | '-' :: r => r
     | r => r)

/-- Exact rational `mant * b ^ e` for an integer exponent `e`. -/
def scalePow (b : Nat) (mant : Nat) (e : Int) : Rat :=
  if 0 ≤ e then mkRat (mant * b ^ e.toNat) 1
  else mkRat mant (b ^ (-e).toNat)

/-- Smallest magnitude at which a real value rounds to infinity in IEEE
binary64 round-to-nearest-even: the midpoint `(2^54 - 1) * 2^970` between
the largest finite double `(2^53 - 1) * 2^971` and `2^1024`.  At or above
it, `strconv.ParseFloat` reports a range error and the restreq parser
drops the token.  Written with a shift, `18014398509481983 <<< 970`,
where `18014398509481983 = 2^54 - 1`; see `overflowLimit_eq`. -/
def overflowLimit : Rat := mkRat (18014398509481983 <<< 970) 1

/-- Final step of the float parse: validate underscore placement, build
the exact value, and fail on binary64 overflow as `strconv.ParseFloat`
does. -/
def finishFloat (neg hexb : Bool) (mant nd dpPos : Nat) (eSigned : Int)
    (us : Bool) (orig : Str) : Option GoFloat :=
  if us = true ∧ underscoreOK orig = false then none
  else
    let mag : Rat :=
      if hexb then scalePow 2 mant (4 * ((dpPos : Int) - (nd : Int)) + eSigned)
      else scalePow 10 mant ((dpPos : Int) - (nd : Int) + eSigned)
    let value : Rat := if neg then -mag else mag
    if value ≤ -overflowLimit ∨ overflowLimit ≤ value then none
    else some (GoFloat.finite value)

/-- Exponent part of `readFloat` once the digits start: first character
after the optional sign must be a digit, then digits and underscores run
to the end of the string. -/
def readExpDigits (neg hexb : Bool) (mant nd dpPos : Nat) (us : Bool)
    (orig : Str) (esign : Int) (r : Str) : Option GoFloat :=
  match r with
  | [] => none
  | c :: _ =>
    if isDigit c = false then none
    else
      match scanExp r 0 us with
      | none => none
      | some (e, us2) => finishFloat neg hexb mant nd dpPos (esign * (e : Int)) us2 orig

/-- Exponent part of `readFloat` directly after the exponent character:
an optional sign, then digits. -/
def readExp (neg hexb : Bool) (mant nd dpPos : Nat) (us : Bool)
    (orig : Str) (er : Str) : Option GoFloat :=
  match er with
  | [] => none
  | c :: r =>
    if c = '+' then readExpDigits neg hexb mant nd dpPos us orig 1 r
    else if c = '-' then readExpDigits neg hexb mant nd dpPos us orig (-1) r
    else readExpDigits neg hexb mant nd dpPos us orig 1 (c :: r)

/-- Body of `readFloat` after sign and base detection: mantissa digits,
then either the end of the string (hex literals must carry an exponent)
or the exponent character and the exponent; any other leftover text makes
the whole parse fail, as `ParseFloat` requires the entire string to be
consumed. -/
def readFloatBody (neg hexb : Bool) (s2 orig : Str) : Option GoFloat :=
  match scanMantissa (if hexb then 16 else 10) s2 0 0 none false with
  | (mant, nd, dpOpt, us, rest) =>
    if nd = 0 then none
    else
      let dpPos : Nat := dpOpt.getD nd
      match rest with
      | [] =>
        if hexb then none
        else finishFloat neg hexb mant nd dpPos 0 us orig
      | e :: er =>
        if toLower e = (if hexb then 'p' else 'e') then
          readExp neg hexb mant nd dpPos us orig er
        else none

/-- Part of `readFloat` after the optional sign: detect the hex prefix
`0x` (which Go only recognises when at least one character follows it)
and run the body. -/
def readFloatNoSign (neg : Bool) (s1 orig : Str) : Option GoFloat :=
  match s1 with
  | '0' :: x :: c :: r =>
    if toLower x = 'x' then readFloatBody neg true (c :: r) orig
    else readFloatBody neg false ('0' :: x :: c :: r) orig
  | _ => readFloatBody neg false s1 orig

/-- Model of `strconv`'s `readFloat` over the whole string. -/
def readFloat (s : Str) : Option GoFloat :=
  match s with
  | [] => none
  | c :: cs =>
    if c = '+' then readFloatNoSign false cs s
    else if c = '-' then readFloatNoSign true cs s
    else readFloatNoSign false (c :: cs) s

/-- Model of Go's `strconv.ParseFloat(s, 64)` at the level of acceptance
and exact value: special spellings first, then the numeric literal. -/
def parseFloat64 (s : Str) : Option GoFloat :=
  match special s with
  | some f => some f
  | none => readFloat s

/-- The four dynamic value shapes the restreq parser stores into the JSON
accumulator. -/
inductive JSONValue where
  | str (s : Str)
  | bool (b : Bool)
  | int (i : Int)
  | float (f : GoFloat)
  deriving DecidableEq

/-- The JSON accumulator `map[string]any`, as an association list. -/
abbrev JSONMap := List (Str × JSONValue)

/-- Map update: overwrite in place, or append a fresh key. -/
def mapSet : JSONMap → Str → JSONValue → JSONMap
  | [], k, v => [(k, v)]
  | (k', v') :: rest, k, v =>
    if k' = k then (k, v) :: rest else (k', v') :: mapSet rest k v

/-- Map lookup. -/
def mapGet : JSONMap → Str → Option JSONValue
  | [], _ => none
  | (k', v') :: rest, k => if k' = k then some v' else mapGet rest k

/-- Model of `(*req).SetJSONKeyValue` from the source: cut at `:=` first;
with that separator an empty key or value is discarded, otherwise the
value is parsed as bool, then int64, then float64, the first success
being stored and total failure being discarded; without `:=` the token is
cut at `=` and stored as a string when both halves are non-empty. -/
def SetJSONKeyValue (i : Str) (m : JSONMap) : JSONMap :=
  match cut i typedSep with
  | (key, value, true) =>
    if key = [] ∨ value = [] then m
    else
      match parseBool value with
      | some vb => mapSet m key (JSONValue.bool vb)
      | none =>
        match parseInt64 value with
        | some vi => mapSet m key (JSONValue.int vi)
        | none =>
          match parseFloat64 value with
          | some vf => mapSet m key (JSONValue.float vf)
          | none => m
  | (_, _, false) =>
    match cut i strSep with
    | (key, value, true) =>
      if key ≠ [] ∧ value ≠ [] then mapSet m key (JSONValue.str value) else m
    | (_, _, false) => m

/-- Model of `(*Request).AddJSONKeyValue` from the source: store the pair
unless the key is empty or the value equals the empty string (the Go
`value == ""` interface comparison is true exactly for a string value
equal to `""`). -/
def AddJSONKeyValue (key : Str) (value : JSONValue) (m : JSONMap) : JSONMap :=
  if key = [] ∨ value = JSONValue.str [] then m
  else mapSet m key value

/-- A token the parser ignores: the typed separator with an empty half or
a value failing all three typed parses, the plain separator with an empty
half, or no separator at all. -/
def tokenIgnored (t : Str) : Bool :=
  match cut t typedSep with
  | (k, v, true) =>
    decide (k = [] ∨ v = [] ∨
      (parseBool v = none ∧ parseInt64 v = none ∧ parseFloat64 v = none))
  | (_, _, false) =>
    match cut t strSep with
    | (k, v, true) => decide (k = [] ∨ v = [])
    | (_, _, false) => true

/-- One accumulator-mutating operation of the builder. -/
inductive Op where
  | set (t : Str)
  | add (k : Str) (v : JSONValue)

/-- Apply one operation to the accumulator. -/
def applyOp : Op → JSONMap → JSONMap
  | Op.set t, m => SetJSONKeyValue t m
  | Op.add k v, m => AddJSONKeyValue k v m

/-- Run a sequence of operations on the accumulator. -/
def runOps : List Op → JSONMap → JSONMap
  | [], m => m
  | op :: ops, m => runOps ops (applyOp op m)

/-- Every entry of the accumulator has a non-empty key and a value other
than the empty string. -/
def accOK (m : JSONMap) : Bool :=
  m.all (fun kv => decide (kv.1 ≠ [] ∧ kv.2 ≠ JSONValue.str []))

/-! Helper lemmas about the association-list map. -/

theorem mapGet_mapSet_self (m : JSONMap) (k : Str) (v : JSONValue) :
    mapGet (mapSet m k v) k = some v := by
  induction m with
  | nil => simp [mapSet, mapGet]
  | cons kv rest ih =>
    rcases kv with ⟨k', v'⟩
    by_cases h : k' = k <;> simp [mapSet, mapGet, h, ih]

theorem mapGet_mapSet_ne (m : JSONMap) (k k' : Str) (v : JSONValue)
    (h : k' ≠ k) : mapGet (mapSet m k v) k' = mapGet m k' := by
  have h' : k ≠ k' := Ne.symm h
  induction m with
  | nil => simp [mapSet, mapGet, h']
  | cons kv rest ih =>
    rcases kv with ⟨ka, va⟩
    by_cases hk : ka = k
    · subst hk
      simp [mapSet, mapGet, h']
    · simp [mapSet, mapGet, hk, ih]

theorem mapSet_idem (m : JSONMap) (k : Str) (v : JSONValue) :
    mapSet (mapSet m k v) k v = mapSet m k v := by
  induction m with
  | nil => simp [mapSet]
  | cons kv rest ih =>
    rcases kv with ⟨ka, va⟩
    by_cases hk : ka = k <;> simp [mapSet, hk, ih]

theorem mapSet_all (p : Str × JSONValue → Bool) (m : JSONMap) (k : Str)
    (v : JSONValue) (hm : m.all p = true) (hkv : p (k, v) = true) :
    (mapSet m k v).all p = true := by
  induction m with
  | nil => simp [mapSet, hkv]
  | cons kv rest ih =>
    rcases kv with ⟨ka, va⟩
    rw [List.all_cons] at hm
    rcases Bool.and_eq_true_iff.mp hm with ⟨h1, h2⟩
    by_cases hk : ka = k
    · simp [mapSet, hk, hkv, h2]
    · simp [mapSet, hk, h1, ih h2]

theorem accOK_mapSet (m : JSONMap) (k : Str) (v : JSONValue)
    (hm : accOK m = true) (hk : k ≠ []) (hv : v ≠ JSONValue.str []) :
    accOK (mapSet m k v) = true :=
  mapSet_all _ m k v hm (by simp [hk, hv])

/-- Master case analysis of the parser: a token is either ignored on every
accumulator, or it determines one non-empty key and one non-empty-string
value that get stored into every accumulator. -/
theorem setJSON_spec (t : Str) :
    (tokenIgnored t = true ∧ ∀ m, SetJSONKeyValue t m = m) ∨
    (tokenIgnored t = false ∧ ∃ k v, k ≠ [] ∧ v ≠ JSONValue.str [] ∧
      ∀ m, SetJSONKeyValue t m = mapSet m k v) := by
  rcases hcut : cut t typedSep with ⟨k, v, ok⟩
  cases ok
  · rcases hcut2 : cut t strSep with ⟨k2, v2, ok2⟩
    cases ok2
    · left
      refine ⟨by simp [tokenIgnored, hcut, hcut2], fun m => by simp [SetJSONKeyValue, hcut, hcut2]⟩
    · by_cases hk : k2 = []
      · left
        refine ⟨by simp [tokenIgnored, hcut, hcut2, hk], fun m => by simp [SetJSONKeyValue, hcut, hcut2, hk]⟩
      · by_cases hv : v2 = []
        · left
          refine ⟨by simp [tokenIgnored, hcut, hcut2, hv], fun m => by simp [SetJSONKeyValue, hcut, hcut2, hv]⟩
        · right
          refine ⟨by simp [tokenIgnored, hcut, hcut2, hk, hv], k2, JSONValue.str v2, hk, by simp [hv],
            fun m => by simp [SetJSONKeyValue, hcut, hcut2, hk, hv]⟩
  · by_cases hk : k = []
    · left
      refine ⟨by simp [tokenIgnored, hcut, hk], fun m => by simp [SetJSONKeyValue, hcut, hk]⟩
    · by_cases hv : v = []
      · left
        refine ⟨by simp [tokenIgnored, hcut, hv], fun m => by simp [SetJSONKeyValue, hcut, hv]⟩
      · rcases hb : parseBool v with _ | b
        · rcases hi : parseInt64 v with _ | i
          · rcases hf : parseFloat64 v with _ | f
            · left
              refine ⟨by simp [tokenIgnored, hcut, hk, hv, hb, hi, hf],
                fun m => by simp [SetJSONKeyValue, hcut, hk, hv, hb, hi, hf]⟩
            · right
              refine ⟨by simp [tokenIgnored, hcut, hk, hv, hb, hi, hf], k, JSONValue.float f, hk, by simp,
                fun m => by simp [SetJSONKeyValue, hcut, hk, hv, hb, hi, hf]⟩
          · right
            refine ⟨by simp [tokenIgnored, hcut, hk, hv, hb, hi], k, JSONValue.int i, hk, by simp,
              fun m => by simp [SetJSONKeyValue, hcut, hk, hv, hb, hi]⟩
        · right
          refine ⟨by simp [tokenIgnored, hcut, hk, hv, hb], k, JSONValue.bool b, hk, by simp,
            fun m => by simp [SetJSONKeyValue, hcut, hk, hv, hb]⟩

/-! Helper lemmas about substring search and `cut`. -/

theorem startsWith_iff (p s : Str) : startsWith p s = true ↔ ∃ r, s = p ++ r := by
  induction p generalizing s with
  | nil => simp [startsWith]
  | cons a ps ih =>
    cases s with
    | nil => simp [startsWith]
    | cons c cs =>
      by_cases h : a = c
      · subst h
        simp [startsWith, ih]
      · rw [show startsWith (a :: ps) (c :: cs) = false from by simp [startsWith, h]]
        simp only [Bool.false_eq_true, false_iff, not_exists]
        intro r hr
        injection hr with h1 h2
        exact h h1.symm

theorem strIndex_found (sep s : Str) (i : Nat) (h : strIndex sep s = some i) :
    startsWith sep (s.drop i) = true := by
  induction s generalizing i with
  | nil =>
    simp [strIndex] at h
    rcases h with ⟨h1, h2⟩
    simp [← h2, h1]
  | cons c cs ih =>
    rw [strIndex] at h
    by_cases hp : startsWith sep (c :: cs) = true
    · rw [if_pos hp] at h
      cases h
      simpa using hp
    · rw [if_neg hp] at h
      rcases Option.map_eq_some'.mp h with ⟨j, hj, hji⟩
      subst hji
      simpa using ih j hj

theorem strIndex_min (sep s : Str) (i : Nat) (h : strIndex sep s = some i) :
    ∀ j, startsWith sep (s.drop j) = true → i ≤ j := by
  induction s generalizing i with
  | nil =>
    intro j _
    simp [strIndex] at h
    omega
  | cons c cs ih =>
    intro j hj
    rw [strIndex] at h
    by_cases hp : startsWith sep (c :: cs) = true
    · rw [if_pos hp] at h
      cases h
      exact Nat.zero_le j
    · rw [if_neg hp] at h
      rcases Option.map_eq_some'.mp h with ⟨i', hi', hii⟩
      subst hii
      cases j with
      | zero => exact absurd (by simpa using hj) hp
      | succ j' => exact Nat.succ_le_succ (ih i' hi' j' (by simpa using hj))

theorem strIndex_none (sep s : Str) (h : strIndex sep s = none) :
    ∀ j, startsWith sep (s.drop j) = false := by
  induction s with
  | nil =>
    intro j
    simp [strIndex] at h
    cases hp : startsWith sep [] <;> simp_all [startsWith_iff]
  | cons c cs ih =>
    intro j
    rw [strIndex] at h
    by_cases hp : startsWith sep (c :: cs) = true
    · rw [if_pos hp] at h
      cases h
    · rw [if_neg hp] at h
      cases j with
      | zero => simpa using Bool.eq_false_iff.mpr (fun hh => hp hh)
      | succ j' =>
        have := ih (by simpa using h) j'
        simpa using this

theorem cut_found (s sep k v : Str) (hsep : sep ≠ [])
    (h : cut s sep = (k, v, true)) :
    s = k ++ sep ++ v ∧ ∀ k' v', s = k' ++ sep ++ v' → k.length ≤ k'.length := by
  rcases hidx : strIndex sep s with _ | i
  · rw [cut, hidx] at h
    cases h
  · rw [cut, hidx] at h
    rcases h with ⟨⟩
    have hpre := strIndex_found sep s i hidx
    rcases (startsWith_iff _ _).mp hpre with ⟨r, hr⟩
    have hlen : i < s.length := by
      by_contra hge
      rw [List.drop_eq_nil_of_le (by omega)] at hr
      cases sep with
      | nil => exact hsep rfl
      | cons a b => exact absurd hr (by simp)
    have hs : s = s.take i ++ sep ++ r := by
      conv_lhs => rw [← List.take_append_drop i s, hr]
      simp [List.append_assoc]
    have hv : s.drop (i + sep.length) = r := by
      conv_lhs => rw [← List.take_append_drop i s, hr]
      rw [List.drop_append_eq_append_drop]
      have hlen2 : (s.take i).length = i := by
        simp [List.length_take]
        omega
      rw [hlen2]
      simp [List.drop_append_eq_append_drop]
    constructor
    · rw [← hv] at hs
      exact hs
    · intro k' v' hkv
      have hdrop : (s.drop k'.length) = sep ++ v' := by
        rw [hkv, List.append_assoc, List.drop_append_eq_append_drop]
        simp
      have : i ≤ k'.length :=
        strIndex_min sep s i hidx k'.length
          ((startsWith_iff _ _).mpr ⟨v', hdrop⟩)
      have hklen : (s.take i).length = i := by
        simp [List.length_take]
        omega
      omega

theorem cut_found_of_split (s sep x y : Str) (h : s = x ++ sep ++ y) :
    ∃ k v, cut s sep = (k, v, true) := by
  rcases hidx : strIndex sep s with _ | i
  · have := strIndex_none sep s hidx x.length
    have hdrop : s.drop x.length = sep ++ y := by
      rw [h, List.append_assoc, List.drop_append_eq_append_drop]
      simp
    rw [(startsWith_iff _ _).mpr ⟨y, hdrop⟩] at this
    cases this
  · exact ⟨s.take i, s.drop (i + sep.length), by rw [cut, hidx]⟩

/-- Claim C1: starting from the empty accumulator, one call of the token parser
produces exactly the twelve specified deltas. -/
theorem c1_twelve_deltas :
    SetJSONKeyValue "nick=test".data [] = [("nick".data, JSONValue.str "test".data)] ∧
    SetJSONKeyValue "nick=test=test".data [] = [("nick".data, JSONValue.str "test=test".data)] ∧
    SetJSONKeyValue "bool:=true".data [] = [("bool".data, JSONValue.bool true)] ∧
    SetJSONKeyValue "bool:=false".data [] = [("bool".data, JSONValue.bool false)] ∧
    SetJSONKeyValue "float64:=2.34".data [] = [("float64".data, JSONValue.float (GoFloat.finite (mkRat 117 50)))] ∧
    SetJSONKeyValue "int32:=76".data [] = [("int32".data, JSONValue.int 76)] ∧
    SetJSONKeyValue "nick=".data [] = [] ∧
    SetJSONKeyValue "nick".data [] = [] ∧
    SetJSONKeyValue "=nick=test".data [] = [] ∧
    SetJSONKeyValue "bool:=xxx".data [] = [] ∧
    SetJSONKeyValue "bool:=".data [] = [] ∧
    SetJSONKeyValue ":=true".data [] = [] :=
  ⟨by decide, by decide, by decide, by decide, by decide, by decide, by decide,
   by decide, by decide, by decide, by decide, by decide⟩

/-- Claim C3: one call of the parser either leaves the accumulator unchanged or
updates the binding of exactly one key, preserving every other key. -/
theorem c3_frame (t : Str) (m : JSONMap) :
    SetJSONKeyValue t m = m ∨
    ∃ k v, SetJSONKeyValue t m = mapSet m k v ∧
      mapGet (SetJSONKeyValue t m) k = some v ∧
      ∀ k', k' ≠ k → mapGet (SetJSONKeyValue t m) k' = mapGet m k' := by
  rcases setJSON_spec t with ⟨_, hid⟩ | ⟨_, k, v, _, _, hset⟩
  · exact Or.inl (hid m)
  · refine Or.inr ⟨k, v, hset m, ?_, ?_⟩
    · rw [hset m]; exact mapGet_mapSet_self m k v
    · intro k' hk'
      rw [hset m]
      exact mapGet_mapSet_ne m k k' v hk'

/-- Claim C3 witness at a concrete token and accumulator. -/
theorem c3_frame_witness :
    SetJSONKeyValue "a:=1".data [("b".data, JSONValue.str "c".data)] = [("b".data, JSONValue.str "c".data)] ∨
    ∃ k v, SetJSONKeyValue "a:=1".data [("b".data, JSONValue.str "c".data)] = mapSet [("b".data, JSONValue.str "c".data)] k v ∧
      mapGet (SetJSONKeyValue "a:=1".data [("b".data, JSONValue.str "c".data)]) k = some v ∧
      ∀ k', k' ≠ k → mapGet (SetJSONKeyValue "a:=1".data [("b".data, JSONValue.str "c".data)]) k' = mapGet [("b".data, JSONValue.str "c".data)] k' :=
  c3_frame "a:=1".data [("b".data, JSONValue.str "c".data)]

/-- Claim C9: the parser is idempotent: applying the same token twice yields the
same accumulator as applying it once. -/
theorem c9_idempotent (t : Str) (m : JSONMap) :
    SetJSONKeyValue t (SetJSONKeyValue t m) = SetJSONKeyValue t m := by
  rcases setJSON_spec t with ⟨_, hid⟩ | ⟨_, k, v, _, _, hset⟩
  · rw [hid m, hid m]
  · rw [hset m, hset (mapSet m k v)]
    exact mapSet_idem m k v

/-- Claim C6: a token matching no grammar production (no separator, an empty
key or value half, or a typed value failing bool, int and float) is
silently discarded, leaving the accumulator exactly unchanged; a token
matching a production always stores an entry, so only the accumulator
distinguishes the two outcomes. -/
theorem c6_silent_discard (t : Str) (m : JSONMap) :
    (tokenIgnored t = true → SetJSONKeyValue t m = m) ∧
    (tokenIgnored t = false →
      ∃ k v, k ≠ [] ∧ SetJSONKeyValue t m = mapSet m k v ∧
        mapGet (SetJSONKeyValue t m) k = some v) := by
  rcases setJSON_spec t with ⟨hig, hid⟩ | ⟨hig, k, v, hk, _, hset⟩
  · refine ⟨fun _ => hid m, fun hcon => ?_⟩
    rw [hig] at hcon
    cases hcon
  · refine ⟨fun hcon => ?_, fun _ => ⟨k, v, hk, hset m, ?_⟩⟩
    · rw [hig] at hcon
      cases hcon
    · rw [hset m]
      exact mapGet_mapSet_self m k v

/-- Claim C6 witness: the malformed token of the spec is ignored on a non-empty
accumulator. -/
theorem c6_silent_discard_witness :
    SetJSONKeyValue "bool:=xxx".data [("a".data, JSONValue.bool true)] = [("a".data, JSONValue.bool true)] :=
  (c6_silent_discard "bool:=xxx".data [("a".data, JSONValue.bool true)]).1 (by decide)

/-- Claim C7: direct insertion stores the pair unless the key is empty or the
value is the empty string; the boolean false and the integer zero are
always stored under a non-empty key, and a firing guard leaves the
accumulator unchanged. -/
theorem c7_direct_insertion (k : Str) (v : JSONValue) (m : JSONMap) :
    (k ≠ [] → v ≠ JSONValue.str [] → AddJSONKeyValue k v m = mapSet m k v ∧ mapGet (AddJSONKeyValue k v m) k = some v) ∧
    (k ≠ [] → AddJSONKeyValue k (JSONValue.bool false) m = mapSet m k (JSONValue.bool false)) ∧
    (k ≠ [] → AddJSONKeyValue k (JSONValue.int 0) m = mapSet m k (JSONValue.int 0)) ∧
    (k = [] ∨ v = JSONValue.str [] → AddJSONKeyValue k v m = m) := by
  refine ⟨fun hk hv => ?_, fun hk => ?_, fun hk => ?_, fun hg => ?_⟩
  · rw [AddJSONKeyValue, if_neg (by rintro (h | h) <;> [exact hk h; exact hv h])]
    exact ⟨rfl, mapGet_mapSet_self m k v⟩
  · rw [AddJSONKeyValue, if_neg (by rintro (h | h) <;> [exact hk h; cases h])]
  · rw [AddJSONKeyValue, if_neg (by rintro (h | h) <;> [exact hk h; cases h])]
  · rw [AddJSONKeyValue, if_pos hg]

/-- Claim C7 witness: the boolean false is stored under a non-empty key. -/
theorem c7_direct_insertion_witness :
    AddJSONKeyValue "k".data (JSONValue.bool false) [] = mapSet [] "k".data (JSONValue.bool false) :=
  (c7_direct_insertion "k".data (JSONValue.bool false) []).2.1 (by decide)

/-- Claim C8: after any sequence of parser calls and direct insertions starting
from the empty accumulator, no entry has an empty key and no entry has an
empty-string value; malformed tokens store nothing at all, so no entry
derives from an empty value segment or a failed typed parse. -/
theorem c8_invariant (ops : List Op) : accOK (runOps ops []) = true := by
  suffices h : ∀ m, accOK m = true → accOK (runOps ops m) = true by
    exact h [] (by decide)
  induction ops with
  | nil => exact fun m hm => hm
  | cons op ops ih =>
    intro m hm
    rw [runOps]
    refine ih _ ?_
    cases op with
    | set t =>
      rcases setJSON_spec t with ⟨_, hid⟩ | ⟨_, k, v, hk, hv, hset⟩
      · rw [applyOp, hid m]; exact hm
      · rw [applyOp, hset m]
        exact accOK_mapSet m k v hm hk hv
    | add k v =>
      rw [applyOp, AddJSONKeyValue]
      by_cases hg : k = [] ∨ v = JSONValue.str []
      · rw [if_pos hg]; exact hm
      · rw [if_neg hg]
        push_neg at hg
        exact accOK_mapSet m k v hm hg.1 hg.2

theorem overflowLimit_eq : overflowLimit = (18014398509481983 : Rat) * 2 ^ 970 := by
  rw [overflowLimit, Nat.shiftLeft_eq, Rat.mkRat_one]
  push_cast
  ring

theorem overflowLimit_eq_pow : overflowLimit = (((2 ^ 54 - 1) * 2 ^ 970 : Nat) : Rat) := by
  rw [overflowLimit_eq]
  push_cast
  norm_num

/-- Claim C5: splitting always happens at the first occurrence of the separator
and `:=` has priority over `=`: whenever `:=` occurs anywhere in the
token, no string entry can be stored; the concrete splits of the spec are
reproduced. -/
theorem c5_separator_priority (t k v k2 v2 : Str) (m : JSONMap) :
    (cut t typedSep = (k, v, true) →
      t = k ++ typedSep ++ v ∧ ∀ k' v', t = k' ++ typedSep ++ v' → k.length ≤ k'.length) ∧
    (cut t strSep = (k2, v2, true) →
      t = k2 ++ strSep ++ v2 ∧ ∀ k' v', t = k' ++ strSep ++ v' → k2.length ≤ k'.length) ∧
    ((∃ x y, t = x ++ typedSep ++ y) →
      SetJSONKeyValue t m = m ∨
        ∃ key val, SetJSONKeyValue t m = mapSet m key val ∧ ∀ s, val ≠ JSONValue.str s) ∧
    SetJSONKeyValue "a=b:=5".data [] = [("a=b".data, JSONValue.int 5)] ∧
    SetJSONKeyValue "nick=test=test".data [] = [("nick".data, JSONValue.str "test=test".data)] := by
  refine ⟨fun h => cut_found t typedSep k v (by decide) h,
    fun h => cut_found t strSep k2 v2 (by decide) h, ?_, by decide, by decide⟩
  rintro ⟨x, y, hxy⟩
  rcases cut_found_of_split t typedSep x y hxy with ⟨k0, v0, hcut⟩
  by_cases hk : k0 = []
  · left
    simp [SetJSONKeyValue, hcut, hk]
  · by_cases hv : v0 = []
    · left
      simp [SetJSONKeyValue, hcut, hv]
    · rcases hb : parseBool v0 with _ | b
      · rcases hi : parseInt64 v0 with _ | i
        · rcases hf : parseFloat64 v0 with _ | f
          · left
            simp [SetJSONKeyValue, hcut, hk, hv, hb, hi, hf]
          · right
            exact ⟨k0, JSONValue.float f,
              by simp [SetJSONKeyValue, hcut, hk, hv, hb, hi, hf], by simp⟩
        · right
          exact ⟨k0, JSONValue.int i,
            by simp [SetJSONKeyValue, hcut, hk, hv, hb, hi], by simp⟩
      · right
        exact ⟨k0, JSONValue.bool b,
          by simp [SetJSONKeyValue, hcut, hk, hv, hb], by simp⟩

/-- Claim C5 witness: the token with an earlier plain separator splits at the
typed one. -/
theorem c5_separator_priority_witness :
    SetJSONKeyValue "a=b:=5".data [] = [("a=b".data, JSONValue.int 5)] :=
  (c5_separator_priority "a=b:=5".data [] [] [] [] []).2.2.2.1

/-- Claim C4: for a typed token with non-empty halves, the parses are tried in
the fixed order bool, int, float, and the first success wins: an integer
parse that succeeds is stored as an integer even when the float parse
would also succeed, as for the value 76. -/
theorem c4_parse_order (t k v : Str) (m : JSONMap)
    (hc : cut t typedSep = (k, v, true)) (hk : k ≠ []) (hv : v ≠ []) :
    (∀ b, parseBool v = some b → SetJSONKeyValue t m = mapSet m k (JSONValue.bool b)) ∧
    (∀ i, parseBool v = none → parseInt64 v = some i →
      SetJSONKeyValue t m = mapSet m k (JSONValue.int i)) ∧
    (∀ i f, parseBool v = none → parseInt64 v = some i → parseFloat64 v = some f →
      SetJSONKeyValue t m = mapSet m k (JSONValue.int i)) ∧
    (∀ f, parseBool v = none → parseInt64 v = none → parseFloat64 v = some f →
      SetJSONKeyValue t m = mapSet m k (JSONValue.float f)) := by
  refine ⟨fun b hb => ?_, fun i hb hi => ?_, fun i f hb hi _ => ?_, fun f hb hi hf => ?_⟩
  · simp [SetJSONKeyValue, hc, hk, hv, hb]
  · simp [SetJSONKeyValue, hc, hk, hv, hb, hi]
  · simp [SetJSONKeyValue, hc, hk, hv, hb, hi]
  · simp [SetJSONKeyValue, hc, hk, hv, hb, hi, hf]

/-- Claim C4 witness: 76 parses as an int and as a float, and the int wins. -/
theorem c4_parse_order_witness :
    SetJSONKeyValue "int32:=76".data [] = mapSet [] "int32".data (JSONValue.int 76) :=
  (c4_parse_order "int32:=76".data "int32".data "76".data [] (by decide) (by decide)
    (by decide)).2.2.1 76 (GoFloat.finite (mkRat 76 1)) (by decide) (by decide) (by decide)

theorem parseBool_isSome_iff (v : Str) :
    (∃ b, parseBool v = some b) ↔ v ∈ trueSpellings ++ falseSpellings := by
  constructor
  · rintro ⟨b, hb⟩
    rw [parseBool] at hb
    split at hb
    · rename_i h1
      simp [trueSpellings, falseSpellings]
      tauto
    · split at hb
      · rename_i h2
        simp [trueSpellings, falseSpellings]
        tauto
      · cases hb
  · intro hv
    simp [trueSpellings, falseSpellings] at hv
    rcases hv with (h|h|h|h|h|h|h|h|h|h|h|h) <;> subst h <;>
      first
      | exact ⟨true, by decide⟩
      | exact ⟨false, by decide⟩

theorem parseBool_of_mem_true (v : Str) (h : v ∈ trueSpellings) :
    parseBool v = some true := by
  simp [trueSpellings] at h
  rcases h with (h|h|h|h|h|h) <;> subst h <;> decide

theorem parseBool_of_mem_false (v : Str) (h : v ∈ falseSpellings) :
    parseBool v = some false := by
  simp [falseSpellings] at h
  rcases h with (h|h|h|h|h|h) <;> subst h <;> decide

/-- Claim C2 counterexample: the value TRUE is neither of the two spellings the
claim admits, yet the parser stores a boolean entry for it. -/
theorem c2_boolean_spellings_counterexample :
    ("TRUE".data ≠ "true".data ∧ "TRUE".data ≠ "false".data) ∧
    cut "bool:=TRUE".data typedSep = ("bool".data, "TRUE".data, true) ∧
    SetJSONKeyValue "bool:=TRUE".data [] = [("bool".data, JSONValue.bool true)] := by
  refine ⟨⟨by decide, by decide⟩, by decide, by decide⟩

/-- Claim C2 amended: a typed token with non-empty halves stores a boolean entry
exactly when the value is one of the twelve spellings accepted by Go's
`strconv.ParseBool`; the six true spellings store true, the six false
spellings store false. -/
theorem c2_boolean_spellings (t k v : Str) (m : JSONMap)
    (hc : cut t typedSep = (k, v, true)) (hk : k ≠ []) (hv : v ≠ []) :
    ((∃ b, SetJSONKeyValue t [] = [(k, JSONValue.bool b)]) ↔
      v ∈ trueSpellings ++ falseSpellings) ∧
    (v ∈ trueSpellings → SetJSONKeyValue t m = mapSet m k (JSONValue.bool true)) ∧
    (v ∈ falseSpellings → SetJSONKeyValue t m = mapSet m k (JSONValue.bool false)) := by
  refine ⟨⟨?_, ?_⟩, fun hmem => ?_, fun hmem => ?_⟩
  · rintro ⟨b, hb⟩
    refine (parseBool_isSome_iff v).mp ?_
    rcases hpb : parseBool v with _ | b'
    · rcases hi : parseInt64 v with _ | i
      · rcases hf : parseFloat64 v with _ | f
        · simp [SetJSONKeyValue, hc, hk, hv, hpb, hi, hf] at hb
        · simp [SetJSONKeyValue, hc, hk, hv, hpb, hi, hf, mapSet] at hb
      · simp [SetJSONKeyValue, hc, hk, hv, hpb, hi, mapSet] at hb
    · exact ⟨b', rfl⟩
  · intro hmem
    rcases (parseBool_isSome_iff v).mpr hmem with ⟨b, hb⟩
    exact ⟨b, by simp [SetJSONKeyValue, hc, hk, hv, hb, mapSet]⟩
  · simp [SetJSONKeyValue, hc, hk, hv, parseBool_of_mem_true v hmem]
  · simp [SetJSONKeyValue, hc, hk, hv, parseBool_of_mem_false v hmem]

/-- Claim C2 amended witness: at the concrete token the stored entry is boolean
and the value TRUE is among the twelve spellings. -/
theorem c2_boolean_spellings_witness :
    ∃ b, SetJSONKeyValue "b:=TRUE".data [] = [("b".data, JSONValue.bool b)] :=
  ((c2_boolean_spellings "b:=TRUE".data "b".data "TRUE".data [] (by decide) (by decide)
    (by decide)).1).mpr (by decide)

/-! Lemmas about parsing strings of decimal digits, used for claim C10. -/

theorem isDigit_bounds (c : Char) (h : isDigit c = true) :
    48 ≤ c.toNat ∧ c.toNat ≤ 57 := by
  simpa [isDigit, Bool.and_eq_true, decide_eq_true_eq] using h

theorem digit_toLower (c : Char) (h : isDigit c = true) : toLower c = c := by
  rcases isDigit_bounds c h with ⟨h1, h2⟩
  rw [toLower, if_neg]
  rintro ⟨h3, _⟩
  omega

theorem digit_ne_chars (c : Char) (h : isDigit c = true) :
    c ≠ '+' ∧ c ≠ '-' ∧ c ≠ '_' ∧ c ≠ '.' ∧ c ≠ 'x' := by
  refine ⟨?_, ?_, ?_, ?_, ?_⟩ <;> (intro heq; subst heq; exact absurd h (by decide))

theorem digitVal_of_digit (b : Nat) (c : Char) (h : isDigit c = true) :
    digitVal b c = some (c.toNat - 48) := by
  rw [digitVal, if_pos h]

theorem lowerStr_digits (d : Str) (hd : d.all isDigit = true) : lowerStr d = d := by
  induction d with
  | nil => rfl
  | cons c cs ih =>
    rw [List.all_cons, Bool.and_eq_true] at hd
    show toLower c :: lowerStr cs = c :: cs
    rw [digit_toLower c hd.1, ih hd.2]

theorem special_digits (c : Char) (cs : Str) (hd : (c :: cs).all isDigit = true) :
    special (c :: cs) = none := by
  have hc : isDigit c = true := by
    rw [List.all_cons, Bool.and_eq_true] at hd
    exact hd.1
  rcases digit_ne_chars c hc with ⟨hplus, hminus, -, -, -⟩
  have hlow := lowerStr_digits _ hd
  have hinf : ¬(lowerStr (c :: cs) = "inf".data ∨ lowerStr (c :: cs) = "infinity".data) := by
    rw [hlow]
    rintro (hh | hh) <;> (rw [hh] at hd; exact absurd hd (by decide))
  have hnan : ¬(lowerStr (c :: cs) = "nan".data) := by
    rw [hlow]
    intro hh
    rw [hh] at hd
    exact absurd hd (by decide)
  rw [special, if_neg hplus, if_neg hminus, if_neg hinf, if_neg hnan]

theorem scanMantissa_digits (d : Str) :
    d.all isDigit = true → ∀ (mant nd : Nat) (dpOpt : Option Nat) (us : Bool),
      scanMantissa 10 d mant nd dpOpt us =
        (d.foldl (fun n c => n * 10 + (c.toNat - 48)) mant, nd + d.length, dpOpt, us, []) := by
  induction d with
  | nil =>
    intro _ mant nd dpOpt us
    simp [scanMantissa]
  | cons c cs ih =>
    intro hd mant nd dpOpt us
    rw [List.all_cons, Bool.and_eq_true] at hd
    rcases digit_ne_chars c hd.1 with ⟨-, -, hus, hdot, -⟩
    simp only [scanMantissa, if_neg hus, if_neg hdot, digitVal_of_digit 10 c hd.1]
    rw [ih hd.2]
    have hlen : nd + 1 + cs.length = nd + (c :: cs).length := by
      simp only [List.length_cons]
      omega
    rw [hlen, List.foldl_cons]

theorem finishFloat_digits (neg : Bool) (mant nd : Nat) (orig : Str)
    (hov : mant < 18014398509481983 * 2 ^ 970) :
    finishFloat neg false mant nd nd 0 false orig =
      some (GoFloat.finite (if neg then -(mkRat mant 1) else mkRat mant 1)) := by
  have hmag : scalePow 10 mant ((nd : Int) - (nd : Int) + 0) = mkRat mant 1 := by
    have he : ((nd : Int) - (nd : Int) + 0) = 0 := by omega
    rw [he, scalePow, if_pos (by omega : (0 : Int) ≤ 0)]
    norm_num
  have hmk : mkRat (mant : Int) 1 = ((mant : Nat) : Rat) := by
    rw [Rat.mkRat_one]
    push_cast
    rfl
  have hlim2 : overflowLimit = (18014398509481983 : Rat) * 2 ^ 970 := overflowLimit_eq
  have hcast : ((mant : Nat) : Rat) < (18014398509481983 : Rat) * 2 ^ 970 := by
    exact_mod_cast hov
  have hlimpos : (0 : Rat) < (18014398509481983 : Rat) * 2 ^ 970 := by positivity
  have hmant0 : (0 : Rat) ≤ ((mant : Nat) : Rat) := by positivity
  rw [finishFloat, if_neg (by simp)]
  cases neg with
  | false =>
    simp only [Bool.false_eq_true, if_false, hmag]
    rw [if_neg]
    rw [hmk, hlim2]
    rintro (h | h) <;> linarith
  | true =>
    simp only [Bool.false_eq_true, if_false, if_pos, hmag]
    rw [if_neg]
    rw [hmk, hlim2]
    rintro (h | h) <;> linarith

theorem readFloatBody_digits (neg : Bool) (d : Str) (hne : d ≠ [])
    (hd : d.all isDigit = true) (orig : Str) :
    readFloatBody neg false d orig =
      finishFloat neg false (digitsToNat d) d.length d.length 0 false orig := by
  have hscan := scanMantissa_digits d hd 0 0 none false
  have hlen : d.length ≠ 0 := by
    cases d with
    | nil => exact absurd rfl hne
    | cons a b => simp
  rw [readFloatBody]
  simp only [Bool.false_eq_true, if_false, hscan, Nat.zero_add, Option.getD_none]
  rw [if_neg hlen]
  rfl

theorem readFloatNoSign_digits (neg : Bool) (d : Str) (hd : d.all isDigit = true)
    (orig : Str) :
    readFloatNoSign neg d orig = readFloatBody neg false d orig := by
  rw [readFloatNoSign.eq_def]
  split
  · rename_i x c2 r
    have hx : isDigit x = true := by
      simp [List.all_cons, Bool.and_eq_true] at hd
      exact hd.2.1
    have hxne : ¬ (toLower x = 'x') := by
      rw [digit_toLower x hx]
      rcases digit_ne_chars x hx with ⟨-, -, -, -, hxx⟩
      exact hxx
    rw [if_neg hxne]
  · rfl

theorem parseFloat64_digits (d : Str) (hne : d ≠ []) (hd : d.all isDigit = true)
    (hov : digitsToNat d < 18014398509481983 * 2 ^ 970) :
    parseFloat64 d = some (GoFloat.finite (mkRat (digitsToNat d) 1)) ∧
    parseFloat64 ('-' :: d) = some (GoFloat.finite (-(mkRat (digitsToNat d) 1))) := by
  cases d with
  | nil => exact absurd rfl hne
  | cons c cs =>
    have hc : isDigit c = true := by
      rw [List.all_cons, Bool.and_eq_true] at hd
      exact hd.1
    rcases digit_ne_chars c hc with ⟨hplus, hminus, -, -, -⟩
    have hinfneg : ¬(lowerStr (c :: cs) = "inf".data ∨ lowerStr (c :: cs) = "infinity".data) := by
      rw [lowerStr_digits _ hd]
      rintro (hh | hh) <;> (rw [hh] at hd; exact absurd hd (by decide))
    constructor
    · rw [parseFloat64, special_digits c cs hd]
      rw [readFloat, if_neg hplus, if_neg hminus]
      rw [readFloatNoSign_digits false (c :: cs) hd, readFloatBody_digits false (c :: cs) (by simp) hd]
      exact finishFloat_digits false (digitsToNat (c :: cs)) (c :: cs).length (c :: cs) hov
    · have hspec : special ('-' :: c :: cs) = none := by
        rw [special, if_neg (by decide), if_pos rfl, specialUnsigned, if_neg hinfneg]
      rw [parseFloat64, hspec]
      rw [readFloat, if_neg (by decide), if_pos rfl]
      rw [readFloatNoSign_digits true (c :: cs) hd, readFloatBody_digits true (c :: cs) (by simp) hd]
      exact finishFloat_digits true (digitsToNat (c :: cs)) (c :: cs).length ('-' :: c :: cs) hov

theorem parseInt64_digits_big (d : Str) (hne : d ≠ []) (hd : d.all isDigit = true)
    (hbig : 2 ^ 63 ≤ digitsToNat d) :
    parseInt64 d = none ∧
    (2 ^ 63 < digitsToNat d → parseInt64 ('-' :: d) = none) := by
  have hcore : parseIntCore false d = none := by
    rw [parseIntCore, if_neg hne, if_neg (by rw [hd]; simp)]
    rw [if_pos]
    right
    have : ((2 ^ 63 : Nat) : Int) ≤ ((digitsToNat d : Nat) : Int) := by exact_mod_cast hbig
    simp only [Bool.false_eq_true, if_false]
    omega
  cases d with
  | nil => exact absurd rfl hne
  | cons c cs =>
    have hc : isDigit c = true := by
      rw [List.all_cons, Bool.and_eq_true] at hd
      exact hd.1
    rcases digit_ne_chars c hc with ⟨hplus, hminus, -, -, -⟩
    constructor
    · rw [parseInt64, if_neg hplus, if_neg hminus]
      exact hcore
    · intro hbig2
      rw [parseInt64, if_neg (by decide), if_pos rfl]
      rw [parseIntCore, if_neg hne, if_neg (by rw [hd]; simp)]
      rw [if_pos]
      left
      have : ((2 ^ 63 : Nat) : Int) < ((digitsToNat (c :: cs) : Nat) : Int) := by exact_mod_cast hbig2
      simp only [if_pos]
      omega

theorem parseBool_digits_big (d : Str) (hd : d.all isDigit = true)
    (hbig : 2 ^ 63 ≤ digitsToNat d) :
    parseBool d = none ∧ parseBool ('-' :: d) = none := by
  constructor
  · rw [parseBool, if_neg, if_neg]
    · rintro (h|h|h|h|h|h)
      · rw [h] at hbig
        exact absurd hbig (by decide)
      all_goals (rw [h] at hd; exact absurd hd (by decide))
    · rintro (h|h|h|h|h|h)
      · rw [h] at hbig
        exact absurd hbig (by decide)
      all_goals (rw [h] at hd; exact absurd hd (by decide))
  · rw [parseBool, if_neg, if_neg]
    · rintro (h|h|h|h|h|h) <;> (injection h with h1 h2; exact absurd h1 (by decide))
    · rintro (h|h|h|h|h|h) <;> (injection h with h1 h2; exact absurd h1 (by decide))

/-- Claim C10 counterexample: a decimal numeral far outside the signed 64-bit
range (one followed by 309 zeros) is dropped entirely, because the float
parse fails with a range error, contrary to the claim that every
out-of-range numeral is stored as a float. -/
theorem c10_beyond_int64_counterexample :
    ('1' :: List.replicate 309 '0').all isDigit = true ∧
    2 ^ 63 - 1 < digitsToNat ('1' :: List.replicate 309 '0') ∧
    SetJSONKeyValue ("big:=".data ++ '1' :: List.replicate 309 '0') [] = [] := by
  exact ⟨by decide, by decide, by decide⟩

/-- Claim C10 amended: for a typed token whose value is an (optionally
negative) decimal numeral outside the signed 64-bit range but of
magnitude below the float64 overflow threshold, the integer parse fails,
the float parse succeeds, and the key is stored as a float; at or beyond
the threshold the float parse fails as well and the token is dropped. -/
theorem c10_beyond_int64 (t k d digits : Str) (m : JSONMap)
    (hc : cut t typedSep = (k, d, true)) (hk : k ≠ [])
    (hdig : digits.all isDigit = true)
    (hrange : (d = digits ∧ 2 ^ 63 ≤ digitsToNat digits) ∨
      (d = '-' :: digits ∧ 2 ^ 63 < digitsToNat digits))
    (hov : digitsToNat digits < (2 ^ 54 - 1) * 2 ^ 970) :
    parseBool d = none ∧ parseInt64 d = none ∧
    ∃ q : Rat, parseFloat64 d = some (GoFloat.finite q) ∧
      (q = mkRat (digitsToNat digits) 1 ∨ q = -(mkRat (digitsToNat digits) 1)) ∧
      SetJSONKeyValue t m = mapSet m k (JSONValue.float (GoFloat.finite q)) := by
  have hov' : digitsToNat digits < 18014398509481983 * 2 ^ 970 := by
    have : (2 ^ 54 - 1) * 2 ^ 970 = 18014398509481983 * 2 ^ 970 := by norm_num
    omega
  have hne : digits ≠ [] := by
    rintro rfl
    rcases hrange with ⟨-, hb⟩ | ⟨-, hb⟩ <;> exact absurd hb (by decide)
  rcases hrange with ⟨hdd, hbig⟩ | ⟨hdd, hbig⟩
  · subst hdd
    have hpb := (parseBool_digits_big d hdig hbig).1
    have hpi := (parseInt64_digits_big d hne hdig hbig).1
    have hpf := (parseFloat64_digits d hne hdig hov').1
    refine ⟨hpb, hpi, mkRat (digitsToNat d) 1, hpf, Or.inl rfl, ?_⟩
    simp [SetJSONKeyValue, hc, hk, hne, hpb, hpi, hpf]
  · subst hdd
    have hpb := (parseBool_digits_big digits hdig (Nat.le_of_lt hbig)).2
    have hpi := (parseInt64_digits_big digits hne hdig (Nat.le_of_lt hbig)).2 hbig
    have hpf := (parseFloat64_digits digits hne hdig hov').2
    refine ⟨hpb, hpi, -(mkRat (digitsToNat digits) 1), hpf, Or.inr rfl, ?_⟩
    simp [SetJSONKeyValue, hc, hk, hpb, hpi, hpf]

/-- Claim C10 amended witness: the spec's example numeral, one beyond the
int64 maximum, is stored as the float 2^63. -/
theorem c10_beyond_int64_witness :
    parseBool "9223372036854775808".data = none ∧
    parseInt64 "9223372036854775808".data = none ∧
    ∃ q : Rat, parseFloat64 "9223372036854775808".data = some (GoFloat.finite q) ∧
      (q = mkRat (digitsToNat "9223372036854775808".data) 1 ∨
        q = -(mkRat (digitsToNat "9223372036854775808".data) 1)) ∧
      SetJSONKeyValue "big:=9223372036854775808".data [] =
        mapSet [] "big".data (JSONValue.float (GoFloat.finite q)) :=
  c10_beyond_int64 "big:=9223372036854775808".data "big".data
    "9223372036854775808".data "9223372036854775808".data []
    (by decide) (by decide) (by decide) (Or.inl ⟨rfl, by decide⟩) (by decide)
